import Mathlib

/-!
Shallow embedding of the Hispanyolo trading system core: wallet activity
tiers, the swap filter, the token categorizer, the token metrics engine,
the position manager take-profit logic, the data client retry loop, and
the two websocket UI servers. Definitions follow the repository sources;
where a body is absent from the sources, the definition is modelled from
the specification and says so in its doc comment.
-/

/-- Wallet activity status levels of the wallet monitoring system. -/
inductive WalletStatus where
  | VERY_ACTIVE
  | ACTIVE
  | WATCHING
  | ASLEEP
deriving DecidableEq, Repr

/-- Status update from the wallet monitoring source: the activity age
(time_diff, here in seconds) is compared against 15 minutes, 1 hour and
4 hours in order. -/
def updateStatus (time_diff : ℚ) : WalletStatus :=
  if time_diff ≤ 15 * 60 then .VERY_ACTIVE
  else if time_diff ≤ 60 * 60 then .ACTIVE
  else if time_diff ≤ 4 * 60 * 60 then .WATCHING
  else .ASLEEP

/-- C4: the derived wallet activity status is a pure function of the age
now minus lastActive: age at most 15 minutes gives VERY_ACTIVE, at most
1 hour gives ACTIVE, at most 4 hours gives WATCHING, anything greater
gives ASLEEP; equal ages always give equal statuses. -/
theorem updateStatus_tiers (age : ℚ) :
    (age ≤ 15 * 60 → updateStatus age = .VERY_ACTIVE) ∧
    (15 * 60 < age → age ≤ 60 * 60 → updateStatus age = .ACTIVE) ∧
    (60 * 60 < age → age ≤ 4 * 60 * 60 → updateStatus age = .WATCHING) ∧
    (4 * 60 * 60 < age → updateStatus age = .ASLEEP) ∧
    (∀ age2 : ℚ, age = age2 → updateStatus age = updateStatus age2) := by
  unfold updateStatus
  refine ⟨?_, ?_, ?_, ?_, ?_⟩
  · intro h; simp [h]
  · intro h1 h2
    rw [if_neg (by linarith), if_pos h2]
  · intro h1 h2
    rw [if_neg (by linarith), if_neg (by linarith), if_pos h2]
  · intro h
    rw [if_neg (by linarith), if_neg (by linarith), if_neg (by linarith)]
  · intro age2 h; rw [h]

/-- Witness for C4 at age 3000 seconds (50 minutes): strictly above the
15 minute bound, within the 1 hour bound, status ACTIVE. -/
theorem updateStatus_tiers_witness :
    (15 * 60 : ℚ) < 3000 ∧ (3000 : ℚ) ≤ 60 * 60 ∧
      updateStatus 3000 = .ACTIVE :=
  ⟨by norm_num, by norm_num,
    (updateStatus_tiers 3000).2.1 (by norm_num) (by norm_num)⟩

/-- Address of wrapped SOL, the native reference asset. -/
def WSOL_ADDRESS : String := "So11111111111111111111111111111111111111112"

/-- Address of USDC, the designated stable reference asset. -/
def USDC_ADDRESS : String := "EPjFWdd5AufqSSqeM2qN1xzybapC8G4wEGGkZwyTDt1v"

/-- One entry of a transaction balanceChange list. -/
structure BalanceChange where
  address : String
  amount : ℚ
deriving DecidableEq, Repr

/-- A raw transaction; balanceChange is none when the key is absent. -/
structure RawTx where
  balanceChange : Option (List BalanceChange)
deriving DecidableEq, Repr

/-- One iteration of the balance-change loop of _is_real_swap, carrying
the three flags (sol_change, usdc_change, token_change). The ignored
token set is a parameter because the IGNORED_TOKENS constant is config. -/
def swapFlagsStep (ignored : List String) (f : Bool × Bool × Bool)
    (change : BalanceChange) : Bool × Bool × Bool :=
  if change.address = WSOL_ADDRESS ∧ change.amount ≠ 0 then
    (true, f.2.1, f.2.2)
  else if change.address = USDC_ADDRESS ∧ change.amount ≠ 0 then
    (f.1, true, f.2.2)
  else if change.address ∉ ignored then
    (f.1, f.2.1, true)
  else f

/-- Swap filter _is_real_swap from the Birdeye integration source:
returns false when balanceChange is absent, otherwise scans the changes
setting the three flags and returns token_change AND
(sol_change OR usdc_change). -/
def is_real_swap (ignored : List String) (tx : RawTx) : Bool :=
  tx.balanceChange.elim false fun changes =>
    let f := changes.foldl (swapFlagsStep ignored) (false, false, false)
    f.2.2 && (f.1 || f.2.1)

/-- Predicate of the sol_change flag. -/
def solChangeP (c : BalanceChange) : Prop :=
  c.address = WSOL_ADDRESS ∧ c.amount ≠ 0

/-- Predicate of the usdc_change flag (reached only past the WSOL arm). -/
def usdcChangeP (c : BalanceChange) : Prop :=
  ¬(c.address = WSOL_ADDRESS ∧ c.amount ≠ 0) ∧
    c.address = USDC_ADDRESS ∧ c.amount ≠ 0

/-- Predicate of the token_change flag (reached only past both arms). -/
def tokenChangeP (ignored : List String) (c : BalanceChange) : Prop :=
  ¬(c.address = WSOL_ADDRESS ∧ c.amount ≠ 0) ∧
    ¬(c.address = USDC_ADDRESS ∧ c.amount ≠ 0) ∧
    c.address ∉ ignored

instance : DecidablePred solChangeP := fun c => by
  unfold solChangeP; infer_instance

instance : DecidablePred usdcChangeP := fun c => by
  unfold usdcChangeP; infer_instance

instance (ignored : List String) : DecidablePred (tokenChangeP ignored) :=
  fun c => by unfold tokenChangeP; infer_instance

/-- The flag fold computes, for each flag, whether the initial flag was
set or some change satisfies the corresponding predicate. -/
theorem swapFlags_foldl (ignored : List String)
    (changes : List BalanceChange) (init : Bool × Bool × Bool) :
    changes.foldl (swapFlagsStep ignored) init =
      (init.1 || changes.any (fun c => decide (solChangeP c)),
       init.2.1 || changes.any (fun c => decide (usdcChangeP c)),
       init.2.2 || changes.any (fun c => decide (tokenChangeP ignored c))) := by
  induction changes generalizing init with
  | nil => simp
  | cons c cs ih =>
    rw [List.foldl_cons, ih]
    simp only [List.any_cons]
    unfold swapFlagsStep solChangeP usdcChangeP tokenChangeP
    by_cases h1 : c.address = WSOL_ADDRESS ∧ c.amount ≠ 0
    · simp [h1]
    · by_cases h2 : c.address = USDC_ADDRESS ∧ c.amount ≠ 0
      · obtain ⟨ha, hn⟩ := h2
        simp [h1, ha, hn, (by decide : ¬USDC_ADDRESS = WSOL_ADDRESS)]
      · by_cases h3 : c.address ∉ ignored
        · simp [h1, h2, h3]
        · simp [h1, h2, h3]

/-- C5: assuming the reference assets are themselves in the ignored set,
is_real_swap is true exactly when the transaction has a balanceChange
list containing at least one change on a non-ignored token and at least
one non-zero change on a reference asset; consequently a transaction
whose changes all touch ignored tokens is rejected. -/
theorem is_real_swap_spec (ignored : List String) (tx : RawTx)
    (hw : WSOL_ADDRESS ∈ ignored) (hu : USDC_ADDRESS ∈ ignored) :
    (is_real_swap ignored tx = true ↔
      ∃ changes, tx.balanceChange = some changes ∧
        (∃ c ∈ changes, c.address ∉ ignored) ∧
        (∃ c ∈ changes,
          (c.address = WSOL_ADDRESS ∨ c.address = USDC_ADDRESS) ∧
            c.amount ≠ 0)) ∧
    (∀ changes, tx.balanceChange = some changes →
      (∀ c ∈ changes, c.address ∈ ignored) →
      is_real_swap ignored tx = false) := by
  have hiff : is_real_swap ignored tx = true ↔
      ∃ changes, tx.balanceChange = some changes ∧
        (∃ c ∈ changes, c.address ∉ ignored) ∧
        (∃ c ∈ changes,
          (c.address = WSOL_ADDRESS ∨ c.address = USDC_ADDRESS) ∧
            c.amount ≠ 0) := by
    cases htx : tx.balanceChange with
    | none => simp [is_real_swap, htx]
    | some changes =>
      have hl : is_real_swap ignored tx =
          ((changes.any fun c => decide (tokenChangeP ignored c)) &&
           ((changes.any fun c => decide (solChangeP c)) ||
            (changes.any fun c => decide (usdcChangeP c)))) := by
        simp [is_real_swap, htx, swapFlags_foldl]
      rw [hl]
      simp only [htx, Option.some.injEq, Bool.and_eq_true, Bool.or_eq_true,
        List.any_eq_true, decide_eq_true_eq]
      constructor
      · rintro ⟨⟨c, hc, hcp⟩, href⟩
        refine ⟨changes, rfl, ⟨c, hc, hcp.2.2⟩, ?_⟩
        rcases href with ⟨d, hd, hdp⟩ | ⟨d, hd, hdp⟩
        · exact ⟨d, hd, Or.inl hdp.1, hdp.2⟩
        · exact ⟨d, hd, Or.inr hdp.2.1, hdp.2.2⟩
      · rintro ⟨changes2, heq, ⟨c, hc, hcp⟩, ⟨d, hd, hdp, hdn⟩⟩
        subst heq
        unfold solChangeP usdcChangeP tokenChangeP
        constructor
        · refine ⟨c, hc, ?_, ?_, hcp⟩
          · rintro ⟨ha, _⟩; exact hcp (ha ▸ hw)
          · rintro ⟨ha, _⟩; exact hcp (ha ▸ hu)
        · rcases hdp with ha | ha
          · exact Or.inl ⟨d, hd, ha, hdn⟩
          · by_cases hsol : d.address = WSOL_ADDRESS ∧ d.amount ≠ 0
            · exact Or.inl ⟨d, hd, hsol⟩
            · exact Or.inr ⟨d, hd, hsol, ha, hdn⟩
  refine ⟨hiff, ?_⟩
  intro changes heq hall
  cases h : is_real_swap ignored tx with
  | false => rfl
  | true =>
    obtain ⟨cs, hcs, ⟨c, hc, hcp⟩, _⟩ := hiff.mp h
    rw [heq] at hcs
    injection hcs with h2
    subst h2
    exact absurd (hall c hc) hcp

/-- Witness for C5: with ignored set containing exactly the two reference
assets, a transaction holding one non-ignored token change and one
non-zero WSOL change is classified a real swap. -/
theorem is_real_swap_spec_witness :
    WSOL_ADDRESS ∈ [WSOL_ADDRESS, USDC_ADDRESS] ∧
    USDC_ADDRESS ∈ [WSOL_ADDRESS, USDC_ADDRESS] ∧
    (is_real_swap [WSOL_ADDRESS, USDC_ADDRESS]
        ⟨some [⟨"tokenX", 5⟩, ⟨WSOL_ADDRESS, -2⟩]⟩ = true ↔
      ∃ changes,
        (some [⟨"tokenX", 5⟩, ⟨WSOL_ADDRESS, (-2 : ℚ)⟩] :
            Option (List BalanceChange)) = some changes ∧
        (∃ c ∈ changes, c.address ∉ [WSOL_ADDRESS, USDC_ADDRESS]) ∧
        (∃ c ∈ changes,
          (c.address = WSOL_ADDRESS ∨ c.address = USDC_ADDRESS) ∧
            c.amount ≠ 0)) :=
  ⟨by simp, by simp,
    (is_real_swap_spec [WSOL_ADDRESS, USDC_ADDRESS]
      ⟨some [⟨"tokenX", 5⟩, ⟨WSOL_ADDRESS, -2⟩]⟩
      (by simp) (by simp)).1⟩

/-- Lowercase conversion of one ASCII character, as Python str.lower
acts on the ASCII range. -/
def lowerChar (c : Char) : Char :=
  if 'A' ≤ c ∧ c ≤ 'Z' then Char.ofNat (c.toNat + 32) else c

/-- Splitting a character list at spaces, accumulator form. -/
def splitWordsAux : List Char → List Char → List (List Char)
  | [], acc => [acc.reverse]
  | c :: rest, acc =>
    if c = ' ' then acc.reverse :: splitWordsAux rest []
    else splitWordsAux rest (c :: acc)

/-- Python text.split(): split at whitespace, dropping empty pieces. -/
def splitWords (t : List Char) : List (List Char) :=
  (splitWordsAux t []).filter (· ≠ [])

/-- Substring test on character lists. -/
def containsSub (hay needle : List Char) : Bool :=
  hay.tails.any (fun tl => needle.isPrefixOf tl)

/-- Primary AI signal lexicon of the categorizer source. -/
def primary_signals : List String :=
  ["ai", "artificial intelligence", "gpt", "claude", "llm",
   "backroom", "base model", "latent space", "ai16z"]

/-- Secondary AI signal lexicon of the categorizer source. -/
def secondary_signals : List String :=
  ["neural", "autonomous", "model", "intelligence",
   "existential", "infinite", "stealth", "synthetic",
   "consciousness", "hyperspace", "mindscape", "sentient"]

/-- Context AI signal lexicon of the categorizer source. -/
def context_signals : List String :=
  ["pattern", "simulation", "manifold", "entropy",
   "metameme", "egregore", "metacognition",
   "dreamtime", "semiotic", "recursive"]

/-- Weight of one primary-tier match (0.6 in the source). -/
def weights_primary : ℚ := 6/10

/-- Weight of one secondary-tier match (0.3 in the source). -/
def weights_secondary : ℚ := 3/10

/-- Weight of one context-tier match (0.2 in the source). -/
def weights_context : ℚ := 2/10

/-- Matched lexicon entries per tier, as returned by analyze_text. -/
structure Signals where
  primary : List String
  secondary : List String
  context : List String
deriving DecidableEq, Repr

/-- Modelled from the spec: the full-scan arm of analyze_text is absent
from the sources (only its quick checks are shown); per the spec,
single-word lexicon entries match word-exact against the tokenized text
and multi-word phrases match by substring. -/
def signalMatch (words : List (List Char)) (t : List Char)
    (sig : String) : Bool :=
  if sig.data.contains ' ' then containsSub t sig.data
  else words.contains sig.data

/-- Matching entries of one signal tier. -/
def matchTier (words : List (List Char)) (t : List Char)
    (sigs : List String) : List String :=
  sigs.filter (fun sig => signalMatch words t sig)

/-- Signal detection analyze_text of the categorizer source: lower-case
the text, split into words, apply the ai16z and ai quick checks, and
otherwise run the full scan over the three signal tiers. -/
def analyze_text (text : String) : Signals :=
  let t := text.data.map lowerChar
  let words := splitWords t
  if words.contains "ai16z".data then ⟨["ai16z"], [], []⟩
  else if words.contains "ai".data then ⟨["ai"], [], []⟩
  else ⟨matchTier words t primary_signals,
        matchTier words t secondary_signals,
        matchTier words t context_signals⟩

/-- Confidence calculation of the categorizer source: sum over the tiers
of match count times tier weight, capped at 1.0. -/
def calculate_confidence (s : Signals) : ℚ :=
  min ((s.primary.length : ℚ) * weights_primary
    + (s.secondary.length : ℚ) * weights_secondary
    + (s.context.length : ℚ) * weights_context) 1

/-- Category assignment thresholds of the categorizer source. -/
def assign_category (confidence : ℚ) : String :=
  if confidence ≥ 7/10 then "AI"
  else if confidence ≥ 3/10 then "HYBRID"
  else "MEME"

/-- Token metadata fields used by the categorizer: the name and the
extensions description. -/
structure TokenMetadata where
  name : String
  description : String
deriving DecidableEq, Repr

/-- Categorization entry point categorize_token of the categorizer
source: a failed metadata fetch (none) yields UNCATEGORIZED at
confidence zero; otherwise the combined name, symbol and description
text is analyzed and thresholded. -/
def categorize_token (metadata : Option TokenMetadata)
    (symbol : String) : String × ℚ :=
  match metadata with
  | none => ("UNCATEGORIZED", 0)
  | some md =>
    let text := md.name ++ " " ++ symbol ++ " " ++ md.description
    let conf := calculate_confidence (analyze_text text)
    (assign_category conf, conf)

/-- C6: a token whose metadata fetch fails is UNCATEGORIZED with
confidence exactly 0.0; a token with resolvable metadata is assigned AI
when the computed confidence is at least 0.7, HYBRID when it is at
least 0.3 and below 0.7, and MEME when it is below 0.3. -/
theorem categorize_token_cases (md : TokenMetadata) (sym fsym : String) :
    categorize_token none fsym = ("UNCATEGORIZED", 0) ∧
    ((categorize_token (some md) sym).2 ≥ 7/10 →
      (categorize_token (some md) sym).1 = "AI") ∧
    ((3 : ℚ)/10 ≤ (categorize_token (some md) sym).2 →
      (categorize_token (some md) sym).2 < 7/10 →
      (categorize_token (some md) sym).1 = "HYBRID") ∧
    ((categorize_token (some md) sym).2 < 3/10 →
      (categorize_token (some md) sym).1 = "MEME") := by
  have h1 : (categorize_token (some md) sym).1 =
      assign_category (categorize_token (some md) sym).2 := rfl
  refine ⟨rfl, ?_, ?_, ?_⟩
  · intro h
    rw [h1]
    unfold assign_category
    rw [if_pos h]
  · intro h2 h3
    rw [h1]
    unfold assign_category
    rw [if_neg (by linarith), if_pos (by linarith)]
  · intro h2
    rw [h1]
    unfold assign_category
    rw [if_neg (by linarith), if_neg (by linarith)]

/-- Witness for C6: metadata text holding the two primary signals gpt
and claude yields confidence 1, hence category AI. -/
theorem categorize_token_cases_witness :
    (categorize_token (some ⟨"gpt claude", ""⟩) "T").2 ≥ 7/10 ∧
    (categorize_token (some ⟨"gpt claude", ""⟩) "T").1 = "AI" := by
  have ha : analyze_text ("gpt claude" ++ " " ++ "T" ++ " " ++ "") =
      ⟨["gpt", "claude"], [], []⟩ := by decide
  have hc : (categorize_token (some ⟨"gpt claude", ""⟩) "T").2 = 1 := by
    show calculate_confidence
      (analyze_text ("gpt claude" ++ " " ++ "T" ++ " " ++ "")) = 1
    rw [ha]
    unfold calculate_confidence weights_primary weights_secondary
      weights_context
    norm_num
  constructor
  · rw [hc]; norm_num
  · exact (categorize_token_cases ⟨"gpt claude", ""⟩ "T" "F").2.1
      (by rw [hc]; norm_num)

/-- Counterexample to C7: on the metadata text AI-powered autonomous
agent, the analysis records no primary match at all (the word-exact
match fails on the hyphenated token), the confidence is 0.3, strictly
below 0.7, and the assigned category is not AI. -/
theorem analyze_ai_powered_cex :
    "ai" ∉ (analyze_text "AI-powered autonomous agent").primary ∧
    calculate_confidence (analyze_text "AI-powered autonomous agent")
      < 7/10 ∧
    assign_category (calculate_confidence
      (analyze_text "AI-powered autonomous agent")) ≠ "AI" := by
  have ha : analyze_text "AI-powered autonomous agent" =
      ⟨[], ["autonomous"], []⟩ := by decide
  have hc : calculate_confidence
      (analyze_text "AI-powered autonomous agent") = 3/10 := by
    rw [ha]
    unfold calculate_confidence weights_primary weights_secondary
      weights_context
    norm_num
  refine ⟨?_, ?_, ?_⟩
  · rw [ha]; decide
  · rw [hc]; norm_num
  · rw [hc]
    unfold assign_category
    rw [if_neg (by norm_num), if_pos (by norm_num)]
    decide

/-- C7 amended: on the metadata text AI-powered autonomous agent the
analysis records no primary-tier match (the word ai-powered is not the
word ai under whitespace tokenization) and one secondary-tier match
autonomous, the confidence is exactly 0.3, and the assigned category is
HYBRID. -/
theorem analyze_ai_powered_amended :
    analyze_text "AI-powered autonomous agent" =
      ⟨[], ["autonomous"], []⟩ ∧
    calculate_confidence (analyze_text "AI-powered autonomous agent")
      = 3/10 ∧
    assign_category (calculate_confidence
      (analyze_text "AI-powered autonomous agent")) = "HYBRID" := by
  have ha : analyze_text "AI-powered autonomous agent" =
      ⟨[], ["autonomous"], []⟩ := by decide
  have hc : calculate_confidence
      (analyze_text "AI-powered autonomous agent") = 3/10 := by
    rw [ha]
    unfold calculate_confidence weights_primary weights_secondary
      weights_context
    norm_num
  refine ⟨ha, hc, ?_⟩
  rw [hc]
  unfold assign_category
  rw [if_neg (by norm_num), if_pos (by norm_num)]

/-- Token metrics state tracked per token by the metrics engine. -/
structure TokenMetrics where
  symbol : String
  score : ℚ
  buy_count : ℕ
  sell_count : ℕ
  total_volume : ℚ
  unique_buyers : List String
deriving DecidableEq, Repr

/-- Modelled from the spec: the body of TokenMetrics.add_score is absent
from the sources (only its call sites are); per the spec a buy adds a
scoring contribution f of the wallet reputation and trade size and
records the buyer. The scoring function f is a parameter because the
policy is left to configuration. -/
def TokenMetrics.add_score (f : ℚ → ℚ → ℚ) (m : TokenMetrics)
    (wallet_score : ℚ) (wallet_address : String) (amount : ℚ) :
    TokenMetrics :=
  { m with
    score := m.score + f wallet_score amount
    buy_count := m.buy_count + 1
    total_volume := m.total_volume + amount
    unique_buyers :=
      if wallet_address ∈ m.unique_buyers then m.unique_buyers
      else wallet_address :: m.unique_buyers }

/-- Modelled from the spec: the body of TokenMetrics.reduce_score is
absent from the sources (only its call sites are); per the spec a sell
reduces the score by a contribution g of wallet reputation and trade
size, clamped so the score never drops below zero. -/
def TokenMetrics.reduce_score (g : ℚ → ℚ → ℚ) (m : TokenMetrics)
    (wallet_score : ℚ) (amount : ℚ) : TokenMetrics :=
  { m with
    score := max 0 (m.score - g wallet_score amount)
    sell_count := m.sell_count + 1 }

/-- One transaction event as dispatched by process_transaction: the
tx_type is buy, sell, or anything else (then ignored). -/
inductive TxEvent where
  | buy (wallet_address : String) (wallet_score : ℚ) (amount : ℚ)
  | sell (wallet_score : ℚ) (amount : ℚ)
  | other
deriving DecidableEq, Repr

/-- Transaction processing of the metrics engine source: a buy calls
add_score, a sell calls reduce_score, any other tx_type is ignored. -/
def process_transaction (f g : ℚ → ℚ → ℚ) (m : TokenMetrics)
    (e : TxEvent) : TokenMetrics :=
  match e with
  | .buy w ws amt => m.add_score f ws w amt
  | .sell ws amt => m.reduce_score g ws amt
  | .other => m

/-- Processing a finite sequence of transaction events in order. -/
def process_transactions (f g : ℚ → ℚ → ℚ) (m : TokenMetrics)
    (es : List TxEvent) : TokenMetrics :=
  es.foldl (process_transaction f g) m

/-- One processing step keeps the score non-negative when buy
contributions are non-negative. -/
theorem process_transaction_score_nonneg (f g : ℚ → ℚ → ℚ)
    (hf : ∀ ws amt, 0 ≤ f ws amt) (m : TokenMetrics)
    (hm : 0 ≤ m.score) (e : TxEvent) :
    0 ≤ (process_transaction f g m e).score := by
  cases e with
  | buy w ws amt =>
    show 0 ≤ m.score + f ws amt
    exact add_nonneg hm (hf ws amt)
  | sell ws amt =>
    show 0 ≤ max 0 (m.score - g ws amt)
    exact le_max_left 0 _
  | other => exact hm

/-- C3: for every token metrics entry with non-negative score and every
finite sequence of buy and sell events, given non-negative buy
contributions, the score after processing the whole sequence (and hence
at every observation point, taking prefixes) stays non-negative: sell
reductions clamp at zero from below. -/
theorem process_transactions_score_nonneg (f g : ℚ → ℚ → ℚ)
    (hf : ∀ ws amt, 0 ≤ f ws amt) (m : TokenMetrics)
    (hm : 0 ≤ m.score) (es : List TxEvent) :
    0 ≤ (process_transactions f g m es).score := by
  induction es generalizing m with
  | nil => exact hm
  | cons e es ih =>
    exact ih (process_transaction f g m e)
      (process_transaction_score_nonneg f g hf m hm e)

/-- Witness for C3: a fresh entry at score zero, one buy of unit
contribution and one large sell, ending at a non-negative score. -/
theorem process_transactions_score_nonneg_witness :
    (∀ ws amt : ℚ, 0 ≤ (fun _ _ : ℚ => (1 : ℚ)) ws amt) ∧
    0 ≤ (TokenMetrics.mk "T" 0 0 0 0 []).score ∧
    0 ≤ (process_transactions (fun _ _ => 1) (fun ws amt => ws * amt)
      (TokenMetrics.mk "T" 0 0 0 0 [])
      [.buy "w1" 50 2, .sell 1000 3]).score :=
  ⟨fun _ _ => zero_le_one,
   le_refl 0,
   process_transactions_score_nonneg (fun _ _ => 1) (fun ws amt => ws * amt)
     (fun _ _ => zero_le_one) (TokenMetrics.mk "T" 0 0 0 0 [])
     (le_refl 0) [.buy "w1" 50 2, .sell 1000 3]⟩

/-- Outcome of one attempt of the external wallet-transaction request:
a successful payload, or a raised error of some kind. The payload is
abstracted to a natural number. -/
inductive ApiOutcome where
  | success (payload : ℕ)
  | timeout
  | connectionError
  | rateLimit
  | authError
deriving DecidableEq, Repr

/-- Success test on an attempt outcome. -/
def ApiOutcome.isSuccess : ApiOutcome → Bool
  | .success _ => true
  | _ => false

/-- Retry bound max_retries of get_wallet_transactions. -/
def max_retries : ℕ := 3

/-- Base delay retry_delay of get_wallet_transactions, in seconds. -/
def retry_delay : ℕ := 2

/-- Attempt loop of get_wallet_transactions from the Birdeye source,
with attempts indexed from zero and the remaining attempt count as
fuel: any exception on the last attempt returns none, an earlier
exception sleeps retry_delay * (attempt + 1) seconds and retries.
Returns the result, the number of attempts made, and the sleep delays
in order. -/
def fetch_loop (outcomes : ℕ → ApiOutcome) :
    ℕ → ℕ → Option ℕ × ℕ × List ℕ
  | _, 0 => (none, 0, [])
  | attempt, r + 1 =>
    match outcomes attempt with
    | .success d => (some d, 1, [])
    | _ =>
      if r = 0 then (none, 1, [])
      else
        let rest := fetch_loop outcomes (attempt + 1) r
        (rest.1, rest.2.1 + 1, retry_delay * (attempt + 1) :: rest.2.2)

/-- Wallet transaction fetch get_wallet_transactions of the Birdeye
source, as a function of the per-attempt outcomes. -/
def get_wallet_transactions (outcomes : ℕ → ApiOutcome) :
    Option ℕ × ℕ × List ℕ :=
  fetch_loop outcomes 0 max_retries

/-- Counterexample to C8: an authentication error on every attempt is
retried through all three attempts (sleeping 2 then 4 seconds) and the
call then returns none to the caller instead of propagating after the
first attempt. -/
theorem get_wallet_transactions_auth_retried_cex :
    get_wallet_transactions (fun _ => .authError) = (none, 3, [2, 4]) ∧
    (3 : ℕ) ≠ 1 :=
  ⟨rfl, by decide⟩

/-- C8 amended: every failure kind, transient or authentication alike,
is retried identically: up to three attempts with increasing delays of
2 then 4 seconds; a success within the bound returns its payload
immediately and exhausting the attempts returns none to the caller
rather than propagating an error. -/
theorem get_wallet_transactions_retry_behavior (outcomes : ℕ → ApiOutcome) :
    (∀ d, outcomes 0 = .success d →
      get_wallet_transactions outcomes = (some d, 1, [])) ∧
    ((outcomes 0).isSuccess = false → ∀ d, outcomes 1 = .success d →
      get_wallet_transactions outcomes = (some d, 2, [2])) ∧
    ((outcomes 0).isSuccess = false → (outcomes 1).isSuccess = false →
      ∀ d, outcomes 2 = .success d →
      get_wallet_transactions outcomes = (some d, 3, [2, 4])) ∧
    ((outcomes 0).isSuccess = false → (outcomes 1).isSuccess = false →
      (outcomes 2).isSuccess = false →
      get_wallet_transactions outcomes = (none, 3, [2, 4])) := by
  refine ⟨?_, ?_, ?_, ?_⟩
  · intro d h0
    simp [get_wallet_transactions, max_retries, fetch_loop, h0]
  · intro h0 d h1
    cases ho : outcomes 0 with
    | success p => rw [ho] at h0; simp [ApiOutcome.isSuccess] at h0
    | _ =>
      simp [get_wallet_transactions, max_retries, fetch_loop, ho, h1,
        retry_delay]
  · intro h0 h1 d h2
    cases ho : outcomes 0 with
    | success p => rw [ho] at h0; simp [ApiOutcome.isSuccess] at h0
    | _ =>
      cases ho1 : outcomes 1 with
      | success p => rw [ho1] at h1; simp [ApiOutcome.isSuccess] at h1
      | _ =>
        simp [get_wallet_transactions, max_retries, fetch_loop, ho,
          ho1, h2, retry_delay]
  · intro h0 h1 h2
    cases ho : outcomes 0 with
    | success p => rw [ho] at h0; simp [ApiOutcome.isSuccess] at h0
    | _ =>
      cases ho1 : outcomes 1 with
      | success p => rw [ho1] at h1; simp [ApiOutcome.isSuccess] at h1
      | _ =>
        cases ho2 : outcomes 2 with
        | success p => rw [ho2] at h2; simp [ApiOutcome.isSuccess] at h2
        | _ =>
          simp [get_wallet_transactions, max_retries, fetch_loop, ho,
            ho1, ho2, retry_delay]

/-- Witness for C8 amended: a rate limit on the first attempt followed
by a success is retried once after a 2 second delay and returns the
payload. -/
theorem get_wallet_transactions_retry_behavior_witness :
    (((fun n => if n = 0 then ApiOutcome.rateLimit
        else ApiOutcome.success 7) 0).isSuccess = false) ∧
    ((fun n => if n = 0 then ApiOutcome.rateLimit
        else ApiOutcome.success 7) 1 = ApiOutcome.success 7) ∧
    get_wallet_transactions
      (fun n => if n = 0 then ApiOutcome.rateLimit
        else ApiOutcome.success 7) = (some 7, 2, [2]) :=
  ⟨rfl, rfl,
    (get_wallet_transactions_retry_behavior
      (fun n => if n = 0 then ApiOutcome.rateLimit
        else ApiOutcome.success 7)).2.1 rfl 7 rfl⟩

/-- Position lifecycle status. -/
inductive PositionStatus where
  | OPEN
  | CLOSED
deriving DecidableEq, Repr

/-- Profit level configuration entry: a price increase fraction paired
with the portion of the original position sold when it triggers. -/
structure ProfitLevel where
  increase : ℚ
  sell_portion : ℚ
deriving DecidableEq, Repr

/-- PROFIT_LEVELS configuration from the sources: four levels at +60,
+120, +180 and +240 percent, each selling 25 percent. -/
def PROFIT_LEVELS : List ProfitLevel :=
  [⟨6/10, 1/4⟩, ⟨12/10, 1/4⟩, ⟨18/10, 1/4⟩, ⟨24/10, 1/4⟩]

/-- Trading position data, as in the Position dataclass of the sources:
take_profits pairs each trigger price with its sell portion, and
profit_levels_hit records the indices of already executed levels. -/
structure Position where
  token_address : String
  entry_price : ℚ
  current_price : ℚ
  original_tokens : ℚ
  tokens : ℚ
  r_pnl : ℚ
  ur_pnl : ℚ
  take_profits : List (ℚ × ℚ)
  profit_levels_hit : List ℕ
  stop_loss : ℚ
  status : PositionStatus
deriving DecidableEq, Repr

/-- Modelled from the spec: position opening is not shown in full in the
sources; take-profit triggers are entry_price times one plus the
configured increase, each with its sell portion, and the stop loss sits
a configured fraction below entry. -/
def open_position (token : String) (entry_price : ℚ) (tokens : ℚ)
    (stop_loss_fraction : ℚ) : Position :=
  { token_address := token
    entry_price := entry_price
    current_price := entry_price
    original_tokens := tokens
    tokens := tokens
    r_pnl := 0
    ur_pnl := 0
    take_profits := PROFIT_LEVELS.map
      (fun l => (entry_price * (1 + l.increase), l.sell_portion))
    profit_levels_hit := []
    stop_loss := entry_price * (1 - stop_loss_fraction)
    status := .OPEN }

/-- Modelled from the spec: the take-profit walk of updatePosition is
split between components in the sources; per the spec the levels are
walked in ascending order carrying the level index, and a level whose
trigger price is reached and whose index is not yet hit sells the
configured portion of the original quantity capped by the remaining
quantity, updates realized PnL, and marks the index hit. -/
def apply_levels (price : ℚ) : ℕ → List (ℚ × ℚ) → Position → Position
  | _, [], p => p
  | idx, (trigger, portion) :: rest, p =>
    if trigger ≤ price ∧ idx ∉ p.profit_levels_hit then
      apply_levels price (idx + 1) rest
        { p with
          tokens := p.tokens - min (portion * p.original_tokens) p.tokens
          r_pnl := p.r_pnl + (price - p.entry_price)
            * min (portion * p.original_tokens) p.tokens
          profit_levels_hit := p.profit_levels_hit ++ [idx] }
    else apply_levels price (idx + 1) rest p

/-- Stop-loss check and unrealized PnL update closing out
update_position: fires when the price is at or below the stop loss and
quantity remains, selling all remaining quantity and closing the
position; otherwise only the unrealized PnL is recomputed. -/
def finish_update (price : ℚ) (p2 : Position) : Position :=
  if price ≤ p2.stop_loss ∧ 0 < p2.tokens then
    { p2 with
      r_pnl := p2.r_pnl + (price - p2.entry_price) * p2.tokens
      tokens := 0
      ur_pnl := 0
      status := .CLOSED }
  else { p2 with ur_pnl := (price - p2.entry_price) * p2.tokens }

/-- Modelled from the spec: updatePosition sets the current price, walks
the take-profit levels, recomputes unrealized PnL, and finally fires
the stop loss when the price is at or below it and quantity remains,
selling all remaining quantity and closing the position. -/
def update_position (p : Position) (price : ℚ) : Position :=
  finish_update price
    (apply_levels price 0 p.take_profits { p with current_price := price })

/-- The take-profit walk never touches the configuration fields of the
position. -/
theorem apply_levels_frame (price : ℚ) (lvls : List (ℚ × ℚ)) (idx : ℕ)
    (p : Position) :
    (apply_levels price idx lvls p).take_profits = p.take_profits ∧
    (apply_levels price idx lvls p).entry_price = p.entry_price ∧
    (apply_levels price idx lvls p).stop_loss = p.stop_loss ∧
    (apply_levels price idx lvls p).original_tokens = p.original_tokens ∧
    (apply_levels price idx lvls p).current_price = p.current_price ∧
    (apply_levels price idx lvls p).status = p.status := by
  induction lvls generalizing idx p with
  | nil => exact ⟨rfl, rfl, rfl, rfl, rfl, rfl⟩
  | cons l rest ih =>
    obtain ⟨trigger, portion⟩ := l
    by_cases h : trigger ≤ price ∧ idx ∉ p.profit_levels_hit
    · simp only [apply_levels, if_pos h]
      simpa using ih (idx + 1) _
    · simp only [apply_levels, if_neg h]
      exact ih (idx + 1) p

/-- Existing hit entries survive the take-profit walk. -/
theorem apply_levels_hits_mono (price : ℚ) (lvls : List (ℚ × ℚ))
    (idx : ℕ) (p : Position) (a : ℕ) (ha : a ∈ p.profit_levels_hit) :
    a ∈ (apply_levels price idx lvls p).profit_levels_hit := by
  induction lvls generalizing idx p with
  | nil => exact ha
  | cons l rest ih =>
    obtain ⟨trigger, portion⟩ := l
    by_cases h : trigger ≤ price ∧ idx ∉ p.profit_levels_hit
    · simp only [apply_levels, if_pos h]
      exact ih (idx + 1) _ (by simp [ha])
    · simp only [apply_levels, if_neg h]
      exact ih (idx + 1) p ha

/-- After the walk, every level whose trigger price is reached has its
index in the hit set. -/
theorem apply_levels_covers (price : ℚ) (lvls : List (ℚ × ℚ)) (idx : ℕ)
    (p : Position) :
    ∀ k, k < lvls.length → (lvls.getD k (0, 0)).1 ≤ price →
      (idx + k) ∈ (apply_levels price idx lvls p).profit_levels_hit := by
  induction lvls generalizing idx p with
  | nil => intro k hk; exact absurd hk (by simp)
  | cons l rest ih =>
    obtain ⟨trigger, portion⟩ := l
    intro k hk htrig
    by_cases h : trigger ≤ price ∧ idx ∉ p.profit_levels_hit
    · simp only [apply_levels, if_pos h]
      cases k with
      | zero =>
        exact apply_levels_hits_mono price rest (idx + 1) _ idx (by simp)
      | succ k2 =>
        have hk2 : k2 < rest.length := by
          simpa [Nat.succ_lt_succ_iff] using hk
        have ht2 : (rest.getD k2 (0, 0)).1 ≤ price := by
          simpa [List.getD_cons_succ] using htrig
        have harr : idx + (k2 + 1) = (idx + 1) + k2 := by omega
        rw [harr]
        exact ih (idx + 1) _ k2 hk2 ht2
    · simp only [apply_levels, if_neg h]
      cases k with
      | zero =>
        have ht0 : trigger ≤ price := by
          simpa [List.getD_cons_zero] using htrig
        have hidx : idx ∈ p.profit_levels_hit := by
          rcases not_and_or.mp h with hnt | hmem
          · exact absurd ht0 hnt
          · simpa using hmem
        exact apply_levels_hits_mono price rest (idx + 1) p idx hidx
      | succ k2 =>
        have hk2 : k2 < rest.length := by
          simpa [Nat.succ_lt_succ_iff] using hk
        have ht2 : (rest.getD k2 (0, 0)).1 ≤ price := by
          simpa [List.getD_cons_succ] using htrig
        have harr : idx + (k2 + 1) = (idx + 1) + k2 := by omega
        rw [harr]
        exact ih (idx + 1) p k2 hk2 ht2

/-- When every triggered level is already hit, the walk is a no-op. -/
theorem apply_levels_stable (price : ℚ) (lvls : List (ℚ × ℚ)) (idx : ℕ)
    (p : Position)
    (h : ∀ k, k < lvls.length → (lvls.getD k (0, 0)).1 ≤ price →
      (idx + k) ∈ p.profit_levels_hit) :
    apply_levels price idx lvls p = p := by
  induction lvls generalizing idx with
  | nil => rfl
  | cons l rest ih =>
    obtain ⟨trigger, portion⟩ := l
    have hguard : ¬(trigger ≤ price ∧ idx ∉ p.profit_levels_hit) := by
      rintro ⟨ht, hmem⟩
      exact hmem (by simpa using h 0 (by simp) (by simpa using ht))
    simp only [apply_levels, if_neg hguard]
    refine ih (idx + 1) ?_
    intro k hk htrig
    have hk2 : k + 1 < ((trigger, portion) :: rest).length := by
      simpa [Nat.succ_lt_succ_iff] using hk
    have ht2 : ((((trigger, portion) :: rest).getD (k + 1) (0, 0)).1)
        ≤ price := by
      simpa [List.getD_cons_succ] using htrig
    have harr : (idx + 1) + k = idx + (k + 1) := by omega
    rw [harr]
    exact h (k + 1) hk2 ht2

/-- A second update at a price that triggers no new level and no stop
loss leaves quantity, realized PnL and the hit set unchanged. -/
theorem update_position_noop_parts (price : ℚ) (q : Position)
    (hcov : ∀ k, k < q.take_profits.length →
      (q.take_profits.getD k (0, 0)).1 ≤ price →
      k ∈ q.profit_levels_hit)
    (hng : ¬(price ≤ q.stop_loss ∧ 0 < q.tokens)) :
    (update_position q price).tokens = q.tokens ∧
    (update_position q price).r_pnl = q.r_pnl ∧
    (update_position q price).profit_levels_hit =
      q.profit_levels_hit := by
  have hstable : apply_levels price 0 q.take_profits
      { q with current_price := price } =
      { q with current_price := price } := by
    apply apply_levels_stable
    intro k hk htrig
    simpa using hcov k (by simpa using hk) (by simpa using htrig)
  unfold update_position
  rw [hstable]
  unfold finish_update
  rw [if_neg (by simpa using hng)]
  exact ⟨rfl, rfl, rfl⟩

/-- C2: calling update_position a second time at the same price with no
intervening state change executes no additional sells: every level
already in the hit set is skipped, so remaining quantity, realized PnL
and the hit set are unchanged by the second call. -/
theorem update_position_idempotent (p : Position) (price : ℚ) :
    (update_position (update_position p price) price).tokens =
      (update_position p price).tokens ∧
    (update_position (update_position p price) price).r_pnl =
      (update_position p price).r_pnl ∧
    (update_position (update_position p price) price).profit_levels_hit =
      (update_position p price).profit_levels_hit := by
  have hf := apply_levels_frame price p.take_profits 0
    { p with current_price := price }
  have hcov2 := apply_levels_covers price p.take_profits 0
    { p with current_price := price }
  set P2 := apply_levels price 0 p.take_profits
    { p with current_price := price } with hP2
  have htpP2 : P2.take_profits = p.take_profits := hf.1
  have hq : update_position p price = finish_update price P2 := rfl
  by_cases hg : price ≤ P2.stop_loss ∧ 0 < P2.tokens
  · have hqe : update_position p price =
        { P2 with
          r_pnl := P2.r_pnl + (price - P2.entry_price) * P2.tokens
          tokens := 0
          ur_pnl := 0
          status := .CLOSED } := by
      rw [hq]; unfold finish_update; rw [if_pos hg]
    apply update_position_noop_parts
    · intro k hk htrig
      rw [hqe]
      show k ∈ P2.profit_levels_hit
      rw [hqe] at hk htrig
      have hk2 : k < p.take_profits.length := by
        simpa [htpP2] using hk
      have ht2 : (p.take_profits.getD k (0, 0)).1 ≤ price := by
        rw [show ({ P2 with
          r_pnl := P2.r_pnl + (price - P2.entry_price) * P2.tokens
          tokens := 0
          ur_pnl := 0
          status := PositionStatus.CLOSED } : Position).take_profits
            = p.take_profits from htpP2] at htrig
        exact htrig
      simpa using hcov2 k hk2 ht2
    · rw [hqe]
      intro hcon
      exact absurd hcon.2 (by norm_num)
  · have hqe : update_position p price =
        { P2 with ur_pnl := (price - P2.entry_price) * P2.tokens } := by
      rw [hq]; unfold finish_update; rw [if_neg hg]
    apply update_position_noop_parts
    · intro k hk htrig
      rw [hqe]
      show k ∈ P2.profit_levels_hit
      rw [hqe] at hk htrig
      have hk2 : k < p.take_profits.length := by
        simpa [htpP2] using hk
      have ht2 : (p.take_profits.getD k (0, 0)).1 ≤ price := by
        rw [show ({ P2 with
          ur_pnl := (price - P2.entry_price) * P2.tokens } :
            Position).take_profits = p.take_profits from htpP2] at htrig
        exact htrig
      simpa using hcov2 k hk2 ht2
    · rw [hqe]
      exact hg

/-- The walk only ever adds indices of levels it actually walked. -/
theorem apply_levels_hits_sub (price : ℚ) (lvls : List (ℚ × ℚ))
    (idx : ℕ) (p : Position) :
    ∀ a ∈ (apply_levels price idx lvls p).profit_levels_hit,
      a ∈ p.profit_levels_hit ∨ (idx ≤ a ∧ a < idx + lvls.length) := by
  induction lvls generalizing idx p with
  | nil => intro a ha; exact Or.inl ha
  | cons l rest ih =>
    obtain ⟨trigger, portion⟩ := l
    intro a ha
    by_cases h : trigger ≤ price ∧ idx ∉ p.profit_levels_hit
    · rw [show apply_levels price idx ((trigger, portion) :: rest) p =
        apply_levels price (idx + 1) rest
          { p with
            tokens := p.tokens - min (portion * p.original_tokens) p.tokens
            r_pnl := p.r_pnl + (price - p.entry_price)
              * min (portion * p.original_tokens) p.tokens
            profit_levels_hit := p.profit_levels_hit ++ [idx] }
        from by simp only [apply_levels, if_pos h]] at ha
      rcases ih (idx + 1) _ a ha with hmem | hrange
      · rcases List.mem_append.mp hmem with hold | hnew
        · exact Or.inl hold
        · right
          have : a = idx := by simpa using hnew
          subst this
          constructor
          · exact Nat.le_refl a
          · simp [Nat.lt_add_of_pos_right]
      · right
        simp only [List.length_cons]
        omega
    · rw [show apply_levels price idx ((trigger, portion) :: rest) p =
        apply_levels price (idx + 1) rest p
        from by simp only [apply_levels, if_neg h]] at ha
      rcases ih (idx + 1) p a ha with hmem | hrange
      · exact Or.inl hmem
      · right
        simp only [List.length_cons]
        omega

/-- The walk preserves distinctness of the hit set: a level is only
marked when its index is not yet present. -/
theorem apply_levels_nodup (price : ℚ) (lvls : List (ℚ × ℚ)) (idx : ℕ)
    (p : Position) (hnd : p.profit_levels_hit.Nodup) :
    (apply_levels price idx lvls p).profit_levels_hit.Nodup := by
  induction lvls generalizing idx p with
  | nil => exact hnd
  | cons l rest ih =>
    obtain ⟨trigger, portion⟩ := l
    by_cases h : trigger ≤ price ∧ idx ∉ p.profit_levels_hit
    · simp only [apply_levels, if_pos h]
      apply ih (idx + 1)
      show (p.profit_levels_hit ++ [idx]).Nodup
      have := (List.Nodup.concat h.2 hnd)
      rwa [List.concat_eq_append] at this
    · simp only [apply_levels, if_neg h]
      exact ih (idx + 1) p hnd

/-- Invariant carried by a position through price updates: hit indices
are pairwise distinct and within the take-profit list. -/
def PositionInv (p : Position) : Prop :=
  p.profit_levels_hit.Nodup ∧
    ∀ a ∈ p.profit_levels_hit, a < p.take_profits.length

/-- Fields of update_position: take profits, entry price and stop loss
are never modified, and the hit set is that produced by the walk. -/
theorem update_position_frame (p : Position) (price : ℚ) :
    (update_position p price).take_profits = p.take_profits ∧
    (update_position p price).profit_levels_hit =
      (apply_levels price 0 p.take_profits
        { p with current_price := price }).profit_levels_hit := by
  have hf := apply_levels_frame price p.take_profits 0
    { p with current_price := price }
  unfold update_position finish_update
  by_cases hg : price ≤ (apply_levels price 0 p.take_profits
      { p with current_price := price }).stop_loss ∧
      0 < (apply_levels price 0 p.take_profits
      { p with current_price := price }).tokens
  · rw [if_pos hg]
    exact ⟨hf.1, rfl⟩
  · rw [if_neg hg]
    exact ⟨hf.1, rfl⟩

/-- Price updates preserve the position invariant. -/
theorem update_position_inv (p : Position) (price : ℚ)
    (hp : PositionInv p) : PositionInv (update_position p price) := by
  obtain ⟨hframe_tp, hframe_hits⟩ := update_position_frame p price
  constructor
  · rw [hframe_hits]
    exact apply_levels_nodup price p.take_profits 0
      { p with current_price := price } hp.1
  · intro a ha
    rw [hframe_hits] at ha
    rw [hframe_tp]
    rcases apply_levels_hits_sub price p.take_profits 0
        { p with current_price := price } a ha with hmem | hrange
    · exact hp.2 a hmem
    · omega

/-- The invariant and the take-profit list persist through any finite
sequence of price updates. -/
theorem foldl_update_position_inv (prices : List ℚ) (p : Position)
    (hp : PositionInv p) :
    PositionInv (prices.foldl update_position p) ∧
    (prices.foldl update_position p).take_profits = p.take_profits := by
  induction prices generalizing p with
  | nil => exact ⟨hp, rfl⟩
  | cons price rest ih =>
    have h1 := update_position_inv p price hp
    have h2 := (update_position_frame p price).1
    have h3 := ih (update_position p price) h1
    exact ⟨h3.1, h3.2.trans h2⟩

/-- Sum of the sell portions of the already hit levels, looked up by
level index in the take-profit list. -/
def hitPortionSum (p : Position) : ℚ :=
  (p.profit_levels_hit.map
    (fun i => (p.take_profits.getD i (0, 0)).2)).sum

/-- Sum of a constant-valued map over a list. -/
theorem map_sum_const (f : ℕ → ℚ) (l : List ℕ) (q : ℚ)
    (h : ∀ a ∈ l, f a = q) : (l.map f).sum = l.length * q := by
  induction l with
  | nil => simp
  | cons a rest ih =>
    have ha : f a = q := h a (by simp)
    have hrest : (rest.map f).sum = rest.length * q :=
      ih (fun b hb => h b (by simp [hb]))
    simp only [List.map_cons, List.sum_cons, List.length_cons, hrest, ha]
    push_cast
    ring

/-- A duplicate-free list of naturals below n has at most n elements. -/
theorem nodup_bounded_length (l : List ℕ) (n : ℕ) (hnd : l.Nodup)
    (hlt : ∀ a ∈ l, a < n) : l.length ≤ n := by
  classical
  have hsub : l.toFinset ⊆ Finset.range n := by
    intro a ha
    rw [Finset.mem_range]
    exact hlt a (List.mem_toFinset.mp ha)
  have hcard := Finset.card_le_card hsub
  rw [List.toFinset_card_of_nodup hnd, Finset.card_range] at hcard
  exact hcard

/-- C1: starting from a freshly opened position under the configured
PROFIT_LEVELS, after any finite sequence of price updates no take-profit
level index appears twice in the hit set, and the sum of the sell
portions of triggered levels never exceeds 1. -/
theorem position_profit_levels_sound (token : String)
    (entry qty slf : ℚ) (prices : List ℚ) :
    (prices.foldl update_position
      (open_position token entry qty slf)).profit_levels_hit.Nodup ∧
    hitPortionSum (prices.foldl update_position
      (open_position token entry qty slf)) ≤ 1 := by
  have hinv0 : PositionInv (open_position token entry qty slf) := by
    constructor
    · show List.Nodup []
      exact List.nodup_nil
    · intro a ha
      exact absurd ha (by simp [open_position])
  obtain ⟨hinv, htp⟩ := foldl_update_position_inv prices
    (open_position token entry qty slf) hinv0
  refine ⟨hinv.1, ?_⟩
  have hlen : (open_position token entry qty slf).take_profits.length
      = 4 := by
    simp [open_position, PROFIT_LEVELS]
  have hport : ∀ i, i < 4 →
      ((open_position token entry qty slf).take_profits.getD
        i (0, 0)).2 = 1/4 := by
    intro i hi
    interval_cases i <;> simp [open_position, PROFIT_LEVELS]
  unfold hitPortionSum
  set P := prices.foldl update_position (open_position token entry qty slf)
  have hbound : ∀ a ∈ P.profit_levels_hit, a < 4 := by
    intro a ha
    have := hinv.2 a ha
    rwa [htp, hlen] at this
  have hallq : ∀ a ∈ P.profit_levels_hit,
      (P.take_profits.getD a (0, 0)).2 = 1/4 := by
    intro a ha
    rw [htp]
    exact hport a (hbound a ha)
  rw [map_sum_const _ _ (1/4) hallq]
  have hle4 : P.profit_levels_hit.length ≤ 4 :=
    nodup_bounded_length _ 4 hinv.1 hbound
  have hcast : (P.profit_levels_hit.length : ℚ) ≤ 4 := by
    exact_mod_cast hle4
  nlinarith [hcast]

/-- State held by the pirate UI websocket relay server (server.ts); the
metric values, position entries and transaction entries are opaque
payloads kept as strings, token_metrics is the JSON object as an
association list keyed by token address. -/
structure ServerState where
  token_metrics : List (String × String)
  active_positions : List String
  recent_transactions : List String
  wallet_status : String
  wallets_checked : ℕ
  transactions_processed : ℕ
  start_time : String
deriving DecidableEq, Repr

/-- An incoming update message of the relay: each field is some when the
parsed JSON object carries that key with a truthy value and none
otherwise. -/
structure UpdateMsg where
  active_positions : Option (List String)
  token_metrics : Option (List (String × String))
  recent_transactions : Option (List String)
  wallet_status : Option String
  wallets_checked : Option ℕ
  transactions_processed : Option ℕ
  start_time : Option String
deriving DecidableEq, Repr

/-- First-match lookup in a JSON object kept as an association list. -/
def alookup (k : String) : List (String × String) → Option String
  | [] => none
  | e :: rest => if e.1 = k then some e.2 else alookup k rest

/-- Merge of two JSON objects as by the object spread in server.ts:
entries of the update override entries of the old object key by key,
old entries without an override stay, and new keys are appended. -/
def objectMerge (old upd : List (String × String)) :
    List (String × String) :=
  old.map (fun e => (e.1, (alookup e.1 upd).getD e.2)) ++
    upd.filter (fun e => (alookup e.1 old).isNone)

/-- Websocket message handler of server.ts: a message carrying
active_positions replaces the positions array; otherwise a message
carrying token_metrics merges the new metrics into the existing object;
otherwise the whole message object is spread over the state. -/
def handleMessage (s : ServerState) (m : UpdateMsg) : ServerState :=
  match m.active_positions with
  | some ps => { s with active_positions := ps }
  | none =>
    match m.token_metrics with
    | some tm =>
      { s with token_metrics := objectMerge s.token_metrics tm }
    | none =>
      { s with
        recent_transactions :=
          m.recent_transactions.getD s.recent_transactions
        wallet_status := m.wallet_status.getD s.wallet_status
        wallets_checked := m.wallets_checked.getD s.wallets_checked
        transactions_processed :=
          m.transactions_processed.getD s.transactions_processed
        start_time := m.start_time.getD s.start_time }

/-- Lookup through a map that rewrites only the values. -/
theorem alookup_map_values (old : List (String × String))
    (f : String → String → String) (k : String) :
    alookup k (old.map (fun e => (e.1, f e.1 e.2))) =
      (alookup k old).map (f k) := by
  induction old with
  | nil => rfl
  | cons e rest ih =>
    by_cases h : e.1 = k
    · simp only [List.map_cons, alookup, if_pos h]
      rw [h]
      rfl
    · simp only [List.map_cons, alookup, if_neg h, ih]

/-- Lookup through a filter whose predicate depends only on the key. -/
theorem alookup_filter_key (l : List (String × String))
    (q : String → Bool) (k : String) (hq : q k = true) :
    alookup k (l.filter (fun e => q e.1)) = alookup k l := by
  induction l with
  | nil => rfl
  | cons e rest ih =>
    by_cases h : e.1 = k
    · have hqe : q e.1 = true := by rw [h]; exact hq
      simp only [List.filter_cons, hqe, if_true, alookup, if_pos h]
    · by_cases hqe : q e.1 = true
      · simp only [List.filter_cons, hqe, if_true, alookup, if_neg h, ih]
      · simp only [List.filter_cons, hqe, Bool.false_eq_true, if_false,
          alookup, if_neg h, ih]

/-- Lookup distributes over append, first list first. -/
theorem alookup_append (l1 l2 : List (String × String)) (k : String) :
    alookup k (l1 ++ l2) =
      match alookup k l1 with
      | some v => some v
      | none => alookup k l2 := by
  induction l1 with
  | nil => rfl
  | cons e rest ih =>
    by_cases h : e.1 = k
    · simp only [List.cons_append, alookup, if_pos h]
    · simp only [List.cons_append, alookup, if_neg h]
      exact ih

/-- The object merge behaves per key as: value of the update when the
key is present there, otherwise the old value. -/
theorem objectMerge_alookup (old upd : List (String × String))
    (k : String) :
    alookup k (objectMerge old upd) =
      match alookup k upd with
      | some v => some v
      | none => alookup k old := by
  unfold objectMerge
  rw [alookup_append]
  rw [alookup_map_values old (fun kk v => (alookup kk upd).getD v) k]
  cases hu : alookup k upd with
  | some v =>
    cases ho : alookup k old with
    | some w => simp [ho, hu]
    | none =>
      have hfil := alookup_filter_key upd
        (fun kk => (alookup kk old).isNone) k (by simp [ho])
      simp [ho, hu, hfil]
  | none =>
    cases ho : alookup k old with
    | some w => simp [ho, hu]
    | none =>
      have hfil := alookup_filter_key upd
        (fun kk => (alookup kk old).isNone) k (by simp [ho])
      simp [ho, hu, hfil]

/-- C9: the relay message handler only changes the state field the
message addresses: active_positions updates replace exactly that array;
token_metrics updates (with no active_positions) merge per token
address, preserving entries absent from the update, and leave
active_positions and every other field unchanged. -/
theorem handleMessage_frame (s : ServerState) (m : UpdateMsg) :
    (∀ ps, m.active_positions = some ps →
      (handleMessage s m).active_positions = ps ∧
      (handleMessage s m).token_metrics = s.token_metrics ∧
      (handleMessage s m).recent_transactions = s.recent_transactions ∧
      (handleMessage s m).wallet_status = s.wallet_status ∧
      (handleMessage s m).wallets_checked = s.wallets_checked ∧
      (handleMessage s m).transactions_processed =
        s.transactions_processed ∧
      (handleMessage s m).start_time = s.start_time) ∧
    (m.active_positions = none → ∀ tm, m.token_metrics = some tm →
      (handleMessage s m).active_positions = s.active_positions ∧
      (∀ k, alookup k (handleMessage s m).token_metrics =
        match alookup k tm with
        | some v => some v
        | none => alookup k s.token_metrics) ∧
      (handleMessage s m).recent_transactions = s.recent_transactions ∧
      (handleMessage s m).wallet_status = s.wallet_status ∧
      (handleMessage s m).wallets_checked = s.wallets_checked ∧
      (handleMessage s m).transactions_processed =
        s.transactions_processed ∧
      (handleMessage s m).start_time = s.start_time) := by
  constructor
  · intro ps hps
    unfold handleMessage
    rw [hps]
    exact ⟨rfl, rfl, rfl, rfl, rfl, rfl, rfl⟩
  · intro hnone tm htm
    unfold handleMessage
    rw [hnone, htm]
    refine ⟨rfl, ?_, rfl, rfl, rfl, rfl, rfl⟩
    intro k
    exact objectMerge_alookup s.token_metrics tm k

/-- Witness for C9: a metrics-only message updates the overridden
address, keeps the address absent from the update, and leaves the
positions array alone. -/
theorem handleMessage_frame_witness :
    ((UpdateMsg.mk none (some [("a", "x")]) none none none none
      none).active_positions = none) ∧
    ((UpdateMsg.mk none (some [("a", "x")]) none none none none
      none).token_metrics = some [("a", "x")]) ∧
    ((handleMessage
      (ServerState.mk [("a", "old"), ("b", "keep")] ["p"] [] "ws" 1 2 "t")
      (UpdateMsg.mk none (some [("a", "x")]) none none none none
        none)).active_positions = ["p"]) :=
  ⟨rfl, rfl,
    ((handleMessage_frame
      (ServerState.mk [("a", "old"), ("b", "keep")] ["p"] [] "ws" 1 2 "t")
      (UpdateMsg.mk none (some [("a", "x")]) none none none none
        none)).2 rfl [("a", "x")] rfl).1⟩

/-- State of the UIServer of the typescript UI module; transaction
entries are opaque payloads kept as strings. -/
structure UIState where
  positions : List (String × String)
  token_metrics : String
  wallet_status : String
  wallets_checked : ℕ
  transactions_processed : ℕ
  recent_transactions : List String
deriving DecidableEq, Repr

/-- addTransaction of the UIServer source: unshift the new transaction
to the front of recent_transactions and keep the first 50 entries. -/
def addTransaction (s : UIState) (t : String) : UIState :=
  { s with
    recent_transactions := (t :: s.recent_transactions).take 50 }

/-- C10: after every addTransaction the recent transactions list has at
most 50 entries, the new transaction sits at index 0, and the retained
earlier transactions are exactly a prefix of the previous list, hence
keep their relative order. -/
theorem addTransaction_spec (s : UIState) (t : String) :
    (addTransaction s t).recent_transactions.length ≤ 50 ∧
    (addTransaction s t).recent_transactions.head? = some t ∧
    (addTransaction s t).recent_transactions.tail =
      s.recent_transactions.take 49 ∧
    (addTransaction s t).recent_transactions.tail.Sublist
      s.recent_transactions := by
  have htake : (t :: s.recent_transactions).take 50 =
      t :: s.recent_transactions.take 49 := by
    rw [show (50 : ℕ) = 49 + 1 from rfl]
    exact List.take_succ_cons
  refine ⟨?_, ?_, ?_, ?_⟩
  · show ((t :: s.recent_transactions).take 50).length ≤ 50
    exact List.length_take_le 50 _
  · show ((t :: s.recent_transactions).take 50).head? = some t
    rw [htake]; rfl
  · show ((t :: s.recent_transactions).take 50).tail =
      s.recent_transactions.take 49
    rw [htake]; rfl
  · show ((t :: s.recent_transactions).take 50).tail.Sublist
      s.recent_transactions
    rw [htake]
    exact List.take_sublist 49 s.recent_transactions
